import Mathlib

/-!
Verification development for the PDF word-cloud pipeline
(`src/pdf_extraction.py`) and the word-frequency-driven spatial layout
engine specified in the design document.

The pipeline source under `src/` is glue code: it downloads a PDF,
extracts per-page text, calls the layout/rendering engine on the full
text, and assembles a report. The layout engine itself is an external
collaborator of that file, so its data model and operations are modelled
here from the design specification (each such definition carries a
"Modelled from the spec" doc comment). The extraction, report and
pipeline functions are translated directly from `src/pdf_extraction.py`.

All definitions are executable: machine integers are modelled as
`Nat`/`Int`, Python floats for font sizes as explicit integer fractions
(`Frac`), Python strings as `String` (a list of characters), and
fallible code returns `Except`.
-/

namespace WC

/-! ## Generic string and list helpers (Python semantics) -/

/-- Fuel-driven scan for `removeAll`; every step consumes at least one
character, so fuel equal to the list length suffices. -/
def removeAllAux (pat : List Char) : Nat → List Char → List Char
  | _, [] => []
  | 0, l => l
  | fuel + 1, c :: rest =>
    if pat ≠ [] ∧ pat.isPrefixOf (c :: rest) then
      removeAllAux pat fuel ((c :: rest).drop pat.length)
    else
      c :: removeAllAux pat fuel rest

/-- Left-to-right single-pass removal of every non-overlapping occurrence of
`pat` (non-empty) from a character list, as Python's `str.replace(pat, "")`:
the scan continues after each removed occurrence and never rescans the
output, so removals can splice the surrounding text into new occurrences. -/
def removeAll (pat l : List Char) : List Char := removeAllAux pat l.length l

/-- String version of `removeAll`. -/
def removeAllStr (pat s : String) : String := String.mk (removeAll pat.data s.data)

/-- Does `pat` occur as a contiguous sublist? -/
def hasSub (pat : List Char) : List Char → Bool
  | [] => pat.isPrefixOf []
  | c :: rest => pat.isPrefixOf (c :: rest) || hasSub pat rest

/-- Python's `"\n\n".join(parts)`. -/
def joinParts (sep : List Char) : List (List Char) → List Char
  | [] => []
  | [p] => p
  | p :: q :: rest => p ++ sep ++ joinParts sep (q :: rest)

/-! ## Tokenizer / Normalizer (Modelled from the spec, section 4.1) -/

/-- Modelled from the spec: word-boundary rule of the tokenizer; a token is a
maximal run of alphanumeric characters. -/
def isWordChar (c : Char) : Bool := c.isAlphanum

/-- Split a character list into the maximal runs of characters satisfying
`p`; `cur` holds the (reversed) run currently being read. -/
def splitRunsAux (p : Char → Bool) : List Char → List Char → List String
  | cur, [] => if cur.isEmpty then [] else [String.mk cur.reverse]
  | cur, c :: rest =>
    if p c then splitRunsAux p (c :: cur) rest
    else if cur.isEmpty then splitRunsAux p [] rest
    else String.mk cur.reverse :: splitRunsAux p [] rest

/-- The maximal runs of characters satisfying `p`. -/
def splitTokensOn (p : Char → Bool) (l : List Char) : List String := splitRunsAux p [] l

/-- Modelled from the spec: "split text into candidate tokens using the
configured word-boundary rule". -/
def splitTokens (s : String) : List String := splitTokensOn isWordChar s.data

/-- Case folding, character by character. -/
def lowerStr (s : String) : String := String.mk (s.data.map Char.toLower)

/-- Count occurrences, aggregating in first-seen order. -/
def bump {α : Type} [DecidableEq α] (acc : List (α × Nat)) (w : α) : List (α × Nat) :=
  if acc.any (fun p => p.1 == w) then
    acc.map (fun p => if p.1 == w then (p.1, p.2 + 1) else p)
  else acc ++ [(w, 1)]

/-- Word frequencies in first-seen order. -/
def countTokens (ts : List String) : List (String × Nat) := ts.foldl bump []

/-- Bigram frequencies in first-seen order. -/
def countPairs (ps : List (String × String)) : List ((String × String) × Nat) :=
  ps.foldl bump []

/-- Adjacent token pairs of a token sequence. -/
def adjacentPairs : List String → List (String × String)
  | a :: b :: rest => (a, b) :: adjacentPairs (b :: rest)
  | _ => []

/-- Frequency of `w` in a counted vocabulary (0 when absent). -/
def lookupCount (uni : List (String × Nat)) (w : String) : Nat :=
  (uni.find? (fun p => p.1 == w)).elim 0 Prod.snd

/-- Modelled from the spec: a bigram merges when its frequency reaches "a
configurable multiple of their constituent unigrams' frequency"; the policy
default chosen here is half the smaller constituent count. -/
def collocationMerges (uniMin big : Nat) : Bool := decide (uniMin ≤ 2 * big)

/-- The bigrams that qualify for merging. -/
def mergedBigrams (uni : List (String × Nat)) (bi : List ((String × String) × Nat)) :
    List ((String × String) × Nat) :=
  bi.filter (fun b =>
    collocationMerges (min (lookupCount uni b.1.1) (lookupCount uni b.1.2)) b.2)

/-- How many occurrences of the unigram `w` are subsumed by merged bigrams. -/
def subsumedCount (merged : List ((String × String) × Nat)) (w : String) : Nat :=
  merged.foldl (fun a b => if b.1.1 == w || b.1.2 == w then a + b.2 else a) 0

/-- Modelled from the spec: merge qualifying bigrams "into a single
hyphen/space-joined term, removing the now-subsumed unigram occurrences". -/
def mergeCollocations (uni : List (String × Nat)) (bi : List ((String × String) × Nat)) :
    List (String × Nat) :=
  ((uni.map (fun u => (u.1, u.2 - subsumedCount (mergedBigrams uni bi) u.1))).filter
      (fun u => decide (0 < u.2)))
    ++ (mergedBigrams uni bi).map (fun b => (b.1.1 ++ " " ++ b.1.2, b.2))

/-- Stable insertion of one counted entry into a weakly descending list. -/
def insertByCount (x : String × Nat) : List (String × Nat) → List (String × Nat)
  | [] => [x]
  | y :: ys => if y.2 ≤ x.2 then x :: y :: ys else y :: insertByCount x ys

/-- Stable sort by descending count (ties keep first-seen order). -/
def sortByCountDesc (l : List (String × Nat)) : List (String × Nat) :=
  l.foldr insertByCount []

/-! ## Layout engine configuration and data model (Modelled from the spec) -/

/-- Modelled from the spec, section 6: the config options of the single entry
point `generate_layout`. Canvas dimensions are signed so that the invalid
values `≤ 0` are representable; font sizes are pixel counts;
`rotation_probability` is in thousandths; `scale_exponent` is a natural
exponent (1 is the linear default). -/
structure Config where
  width : Int
  height : Int
  min_font_size : Nat
  max_font_size : Nat
  max_words : Nat
  scale_exponent : Nat
  rotation_set : List Nat
  rotation_probability : Nat
  mask : Option (List (Int × Int))
  stopwords : List String
  min_word_length : Nat
  collocations : Bool
  random_seed : Nat
  max_spiral_steps : Nat
deriving Repr, DecidableEq

/-- Modelled from the spec: `VocabularyEntry` — a word with its aggregated
frequency. -/
structure VocabEntry where
  word : String
  frequency : Nat
deriving Repr, DecidableEq

/-- Modelled from the spec, section 4.1: the tokenizer's filtering of raw
tokens (case folding, minimum length, stop-word removal). -/
def tokenize (cfg : Config) (text : String) : List String :=
  ((splitTokens text).map lowerStr).filter
    (fun w => decide (cfg.min_word_length ≤ w.length) && !(cfg.stopwords.contains w))

/-- Modelled from the spec, section 4.1: `normalize` — tokenize, filter,
count, optionally merge collocations, sort by descending frequency with
first-seen tie order, and cap to the top `max_words`. -/
def normalize (cfg : Config) (text : String) : List VocabEntry :=
  let toks := tokenize cfg text
  let uni := countTokens toks
  let counts :=
    if cfg.collocations then mergeCollocations uni (countPairs (adjacentPairs toks))
    else uni
  ((sortByCountDesc counts).take cfg.max_words).map (fun p => ⟨p.1, p.2⟩)

/-! ## Size scaler (Modelled from the spec, section 4.2) -/

/-- An integer fraction, modelling the float font sizes of the engine. -/
structure Frac where
  num : Int
  den : Nat
deriving Repr, DecidableEq

/-- Value of a fraction as a rational number. -/
def Frac.toQ (f : Frac) : ℚ := (f.num : ℚ) / (f.den : ℚ)

/-- Ceiling of a positive fraction, as a natural number. -/
def fceilNat (f : Frac) : Nat := ((f.num + f.den - 1) / (f.den : Int)).toNat

/-- Modelled from the spec: `ScaledWord` — a word with its computed font size
and placement rank. -/
structure ScaledWord where
  word : String
  frequency : Nat
  font_size : Frac
  rank : Nat
deriving Repr, DecidableEq

/-- Maximum frequency in the vocabulary. -/
def maxFreq (vocab : List VocabEntry) : Nat :=
  vocab.foldr (fun e m => max e.frequency m) 0

/-- Modelled from the spec: `font_size = min_size + (max_size - min_size) *
(relative_frequency ** scale_exponent)` with `relative_frequency =
frequency / max_frequency_in_vocabulary`, computed as one exact fraction
over the common denominator `mf ^ scale_exponent`. -/
def scaleSize (cfg : Config) (freq mf : Nat) : Frac :=
  ⟨(cfg.min_font_size : Int) * (mf : Int) ^ cfg.scale_exponent
      + ((cfg.max_font_size : Int) - (cfg.min_font_size : Int)) * (freq : Int) ^ cfg.scale_exponent,
   mf ^ cfg.scale_exponent⟩

/-- Modelled from the spec, section 4.2: assign font sizes and placement
ranks (0 = first/largest) to a descending-frequency vocabulary. -/
def scale (cfg : Config) (vocab : List VocabEntry) : List ScaledWord :=
  (vocab.enum).map (fun p => ⟨p.2.word, p.2.frequency, scaleSize cfg p.2.frequency (maxFreq vocab), p.1⟩)

/-! ## Occupancy map and placement search (Modelled from the spec, 4.3-4.4) -/

/-- Modelled from the spec: `PlacedLabel` — an immutable placed-label record;
`footprint` holds the absolute canvas cells the label occupies. -/
structure PlacedLabel where
  word : String
  font_size : Nat
  rotation : Nat
  position : Int × Int
  footprint : List (Int × Int)
deriving Repr, DecidableEq

/-- Modelled from the spec: `LayoutResult` — the sole output of one layout
invocation. -/
structure LayoutResult where
  placed : List PlacedLabel
  dropped : List String
  canvas_width : Int
  canvas_height : Int
deriving Repr, DecidableEq

/-- Modelled from the spec, section 7: the error taxonomy of the engine. -/
inductive LayoutError where
  | emptyVocabulary
  | invalidCanvas
deriving Repr, DecidableEq

/-- Modelled from the spec: linear congruential generator standing for the
caller-supplied seeded randomness source. -/
def lcg (s : Nat) : Nat := (s * 1103515245 + 12345) % 2147483648

/-- The cells of a `d1` by `d2` rectangle anchored at the origin. -/
def rectCells (d1 d2 : Nat) : List (Int × Int) :=
  (List.range d1).flatMap
    (fun x => (List.range d2).map (fun (y : Nat) => ((x : Int), (y : Int))))

/-- Modelled from the spec: the opaque text-measurement collaborator
`measure(word, font_size, rotation) -> LabelFootprint`, as a rectangle of
cells one font-size tall and one font-size wide per character, with the
two dimensions swapped under a 90 degree rotation. -/
def measure (word : String) (size : Nat) (rot : Nat) : List (Int × Int) :=
  if rot == 90 then rectCells size (word.length * size)
  else rectCells (word.length * size) size

/-- Translate a footprint by an offset. -/
def shiftCells (fp : List (Int × Int)) (off : Int × Int) : List (Int × Int) :=
  fp.map (fun c => (c.1 + off.1, c.2 + off.2))

/-- The mask's forbidden cells (empty when no mask is configured). -/
def maskCells (cfg : Config) : List (Int × Int) := cfg.mask.getD []

/-- Is a cell inside the canvas bounds? -/
def inCanvas (cfg : Config) (c : Int × Int) : Bool :=
  decide (0 ≤ c.1) && decide (c.1 < cfg.width) && decide (0 ≤ c.2) && decide (c.2 < cfg.height)

/-- Modelled from the spec: `OccupancyGrid.test` — placing `fp` at `off`
succeeds iff every occupied-to-be cell lies inside the canvas and collides
with no already occupied cell. -/
def testFootprint (cfg : Config) (occ : List (Int × Int)) (fp : List (Int × Int))
    (off : Int × Int) : Bool :=
  (shiftCells fp off).all (fun c => inCanvas cfg c && !(decide (c ∈ occ)))

/-- The eight spiral directions (constant 45 degree angular step). -/
def spiralDirs : List (Int × Int) :=
  [(1, 0), (1, 1), (0, 1), (-1, 1), (-1, 0), (-1, -1), (0, -1), (1, -1)]

/-- Modelled from the spec: the outward spiral walk — constant angular step,
radius growing one cell per full turn; the exact step function is a policy
default the spec leaves open. -/
def spiralOffset (k : Nat) : Int × Int :=
  let dir := spiralDirs.getD (k % 8) (1, 0)
  (dir.1 * ((k / 8 : Nat) : Int), dir.2 * ((k / 8 : Nat) : Int))

/-- Modelled from the spec: draw a rotation from the configured rotation set
with the configured probability (in thousandths), consuming one random
value. -/
def chooseRotation (cfg : Config) (r : Nat) : Nat × Nat :=
  let r2 := lcg r
  let rot :=
    if r2 % 1000 < cfg.rotation_probability then
      cfg.rotation_set.getD 1 (cfg.rotation_set.getD 0 0)
    else cfg.rotation_set.getD 0 0
  (rot, r2)

/-- Modelled from the spec: a center-biased starting point — canvas center
plus bounded jitter, consuming two random values. -/
def seedPoint (cfg : Config) (r : Nat) : (Int × Int) × Nat :=
  let r2 := lcg r
  let r3 := lcg r2
  ((cfg.width / 2 + ((r2 % 9 : Nat) : Int) - 4, cfg.height / 2 + ((r3 % 9 : Nat) : Int) - 4), r3)

/-- Modelled from the spec, section 4.4 steps 1-4: one size attempt — choose
a rotation, measure, seed a spiral, and commit at the first collision-free
candidate within the step budget. -/
def tryAtSize (cfg : Config) (occ : List (Int × Int)) (word : String) (size : Nat)
    (r : Nat) : Option PlacedLabel × Nat :=
  let rotr := chooseRotation cfg r
  let seedr := seedPoint cfg rotr.2
  let fp := measure word size rotr.1
  let cands := (List.range cfg.max_spiral_steps).map
    (fun k => (seedr.1.1 + (spiralOffset k).1, seedr.1.2 + (spiralOffset k).2))
  match cands.find? (fun off => testFootprint cfg occ fp off) with
  | some off => (some ⟨word, size, rotr.1, off, shiftCells fp off⟩, seedr.2)
  | none => (none, seedr.2)

/-- Modelled from the spec, section 4.4 step 5: the sequence of font sizes a
word is attempted at — its scaled size, decremented by one per retry, bounded
below by `min_font_size`. -/
def sizeAttempts (cfg : Config) (start : Frac) : List Nat :=
  ((List.range (fceilNat start + 1)).map (fun i => fceilNat start - i)).filter
    (fun s => decide (cfg.min_font_size ≤ s))

/-- Try each size in order until one attempt succeeds. -/
def trySizes (cfg : Config) (occ : List (Int × Int)) (word : String) :
    List Nat → Nat → Option PlacedLabel × Nat
  | [], r => (none, r)
  | s :: rest, r =>
    match tryAtSize cfg occ word s r with
    | (some pl, r2) => (some pl, r2)
    | (none, r2) => trySizes cfg occ word rest r2

/-- The mutable state of one placement-search run. -/
structure SearchState where
  occ : List (Int × Int)
  rng : Nat
  placed : List PlacedLabel
  dropped : List String
deriving Repr, DecidableEq

/-- Modelled from the spec, section 4.4 steps 5-6: place one word, committing
its footprint on success and recording it as dropped otherwise. -/
def placeOne (cfg : Config) (st : SearchState) (sw : ScaledWord) : SearchState :=
  match trySizes cfg st.occ sw.word (sizeAttempts cfg sw.font_size) st.rng with
  | (some pl, r2) => ⟨st.occ ++ pl.footprint, r2, st.placed ++ [pl], st.dropped⟩
  | (none, r2) => ⟨st.occ, r2, st.placed, st.dropped ++ [sw.word]⟩

/-- Initial search state: occupancy seeded from the mask, randomness from the
configured seed. -/
def initState (cfg : Config) : SearchState := ⟨maskCells cfg, cfg.random_seed, [], []⟩

/-- Run the placement search over all scaled words in rank order. -/
def runLayout (cfg : Config) (ws : List ScaledWord) : SearchState :=
  ws.foldl (placeOne cfg) (initState cfg)

/-- Modelled from the spec, section 6: the single entry point
`generate_layout(text, config) -> LayoutResult`; structural errors are
raised before any placement work. -/
def generate_layout (text : String) (cfg : Config) : Except LayoutError LayoutResult :=
  if cfg.width ≤ 0 ∨ cfg.height ≤ 0 then .error .invalidCanvas
  else
    let v := normalize cfg text
    if v = [] then .error .emptyVocabulary
    else
      let st := runLayout cfg (scale cfg v)
      .ok ⟨st.placed, st.dropped, cfg.width, cfg.height⟩

/-- Disjointness of the canvas cells of two placed labels. -/
def cellsDisjoint (a b : PlacedLabel) : Prop := ∀ c ∈ a.footprint, c ∉ b.footprint

/-- The correctness invariant of a placement-search state: the placed labels
are pairwise cell-disjoint, disjoint from the mask's forbidden cells, and
their cells (as well as the mask's) are all recorded in the occupancy set. -/
def stInv (cfg : Config) (st : SearchState) : Prop :=
  st.placed.Pairwise cellsDisjoint
  ∧ (∀ l ∈ st.placed, ∀ c ∈ l.footprint, c ∉ maskCells cfg)
  ∧ (∀ l ∈ st.placed, ∀ c ∈ l.footprint, c ∈ st.occ)
  ∧ (∀ c ∈ maskCells cfg, c ∈ st.occ)

/-- A small sample configuration used to instantiate proved properties on
concrete inputs. -/
def sampleCfg : Config :=
  { width := 20, height := 8, min_font_size := 1, max_font_size := 3, max_words := 10,
    scale_exponent := 1, rotation_set := [0, 90], rotation_probability := 100,
    mask := none, stopwords := [], min_word_length := 1, collocations := false,
    random_seed := 42, max_spiral_steps := 6 }

/-- A positive but too-small canvas: two by two cells with an eight-pixel
minimum font size. -/
def tinyCfg : Config :=
  { width := 2, height := 2, min_font_size := 8, max_font_size := 9, max_words := 5,
    scale_exponent := 1, rotation_set := [0, 90], rotation_probability := 100,
    mask := none, stopwords := [], min_word_length := 1, collocations := false,
    random_seed := 7, max_spiral_steps := 3 }

/-! ## PDF extraction, report and pipeline (from `src/pdf_extraction.py`) -/

/-- The watermark phrase removed first from the joined text
(`src/pdf_extraction.py` line 107). -/
def arFull : String := "Property of AmericanRhetoric.com"

/-- The watermark site name removed from the joined text and from each page
(`src/pdf_extraction.py` lines 108 and 111). -/
def arShort : String := "AmericanRhetoric.com"

/-- One entry of `extract_text`'s `pages` list. -/
structure PageInfo where
  page_number : Nat
  text : String
  char_count : Nat
deriving Repr, DecidableEq

/-- The result dictionary of `extract_text`; `page_count` is the
`metadata["page_count"]` entry. -/
structure ExtractResult where
  pages : List PageInfo
  page_count : Nat
  full_text : String
deriving Repr, DecidableEq

/-- The `for page_num, page in enumerate(doc)` loop of `extract_text`
(`src/pdf_extraction.py` lines 97-104): page `page_num` (0-based, starting at
`k`) is recorded with 1-based number, raw text, and raw character count. -/
def buildPages (k : Nat) : List String → List PageInfo
  | [] => []
  | t :: rest => PageInfo.mk (k + 1) t t.length :: buildPages (k + 1) rest

/-- `extract_text` from `src/pdf_extraction.py` (lines 62-115), as a function
of the raw per-page texts delivered by the external PDF reader: each page is
recorded with its 1-based number and the length of its raw text; the full
text is the raw pages joined by a blank line with both watermark phrases
removed in turn; each stored page text then has only the short phrase
removed, leaving `char_count` at its pre-removal value. -/
def extract_text (rawPages : List String) : ExtractResult :=
  let pages := buildPages 0 rawPages
  let full0 := String.mk (joinParts "\n\n".data (rawPages.map String.data))
  let full1 := removeAllStr arFull full0
  let full2 := removeAllStr arShort full1
  { pages := pages.map (fun p => { p with text := removeAllStr arShort p.text }),
    page_count := rawPages.length,
    full_text := full2 }

/-- Python whitespace characters recognised by `str.split()`. -/
def isPySpace (c : Char) : Bool :=
  c == ' ' || c == '\t' || c == '\n' || c == '\x0d' || c == '\x0b' || c == '\x0c'

/-- Python's `len(s.split())`: the number of maximal whitespace-free runs. -/
def pyWordCount (s : String) : Nat := (splitTokensOn (fun c => !isPySpace c) s.data).length

/-- Insert a comma after every third character (used on reversed digits). -/
def group3 : List Char → List Char
  | a :: b :: c :: d :: rest => a :: b :: c :: ',' :: group3 (d :: rest)
  | l => l

/-- Python's `f"{n:,}"` thousands-separated decimal formatting. -/
def thousandsFmt (n : Nat) : String :=
  String.mk (group3 (Nat.repr n).data.reverse).reverse

/-- The summary string built by `generate_report`
(`src/pdf_extraction.py` line 412). -/
def generate_report (e : ExtractResult) : String :=
  "Extracted " ++ thousandsFmt (pyWordCount e.full_text) ++ " words from "
    ++ Nat.repr e.page_count ++ " pages."

/-- The word-cloud image produced by `generate_wordcloud`
(`src/pdf_extraction.py` lines 119-156); rendering is an external
collaborator, so the image is modelled by the text it was generated from. -/
structure WordcloudImage where
  source_text : String
deriving Repr, DecidableEq

/-- `generate_wordcloud` from `src/pdf_extraction.py`, with rendering
abstracted away. -/
def generate_wordcloud (text : String) : WordcloudImage := ⟨text⟩

/-- `PipelineOutput` from `src/pdf_extraction.py` (lines 22-27); the
`extracted_text` file is modelled by its written content. -/
structure PipelineOutput where
  summary : String
  extracted_text : String
  wordcloud_image : WordcloudImage
deriving Repr, DecidableEq

/-- `pdf_wordcloud_pipeline` from `src/pdf_extraction.py` (lines 416-455), as
a function of the raw per-page texts of the downloaded PDF: extract, generate
the word cloud from the extracted full text, build the report summary, and
write the same full text to the output file. -/
def pdf_wordcloud_pipeline (rawPages : List String) : PipelineOutput :=
  let extracted := extract_text rawPages
  let wc := generate_wordcloud extracted.full_text
  let summary := generate_report extracted
  { summary := summary, extracted_text := extracted.full_text, wordcloud_image := wc }

/-! ## Lemmas about the tokenizer and the vocabulary pipeline -/

lemma length_pos_of_mem_splitRunsAux (p : Char → Bool) :
    ∀ (l cur : List Char) (w : String), w ∈ splitRunsAux p cur l → 1 ≤ w.length
  | [], cur, w, hw => by
    unfold splitRunsAux at hw
    split at hw
    · simp at hw
    · rename_i hc
      simp only [List.mem_singleton] at hw
      subst hw
      have : (String.mk cur.reverse).length = cur.reverse.length := rfl
      rw [this, List.length_reverse]
      rcases cur with _ | ⟨a, cur⟩
      · simp at hc
      · simp
  | c :: rest, cur, w, hw => by
    unfold splitRunsAux at hw
    split at hw
    · exact length_pos_of_mem_splitRunsAux p rest (c :: cur) w hw
    · split at hw
      · exact length_pos_of_mem_splitRunsAux p rest [] w hw
      · rcases List.mem_cons.mp hw with hw | hw
        · subst hw
          have hlen : (String.mk cur.reverse).length = cur.reverse.length := rfl
          rw [hlen, List.length_reverse]
          rcases cur with _ | ⟨a, cur⟩
          · simp_all
          · simp
        · exact length_pos_of_mem_splitRunsAux p rest [] w hw

lemma length_pos_of_mem_splitTokens {s : String} {w : String}
    (hw : w ∈ splitTokens s) : 1 ≤ w.length :=
  length_pos_of_mem_splitRunsAux isWordChar s.data [] w hw

lemma lowerStr_length (s : String) : (lowerStr s).length = s.length := by
  show (s.data.map Char.toLower).length = s.data.length
  exact List.length_map _ _

lemma length_pos_of_mem_tokenize {cfg : Config} {text : String} {w : String}
    (hw : w ∈ tokenize cfg text) : 1 ≤ w.length := by
  have hmem : w ∈ (splitTokens text).map lowerStr := List.mem_of_mem_filter hw
  rcases List.mem_map.mp hmem with ⟨t, ht, rfl⟩
  rw [lowerStr_length]
  exact length_pos_of_mem_splitTokens ht

lemma mem_bump_fst {α : Type} [DecidableEq α] {acc : List (α × Nat)} {w : α}
    {q : α × Nat} (hq : q ∈ bump acc w) : q.1 ∈ acc.map Prod.fst ∨ q.1 = w := by
  unfold bump at hq
  split at hq
  · rcases List.mem_map.mp hq with ⟨p, hp, hpq⟩
    left
    have hfst : q.1 = p.1 := by
      split at hpq <;> subst hpq <;> rfl
    rw [hfst]
    exact List.mem_map_of_mem Prod.fst hp
  · rcases List.mem_append.mp hq with hq | hq
    · exact Or.inl (List.mem_map_of_mem Prod.fst hq)
    · simp at hq
      subst hq
      exact Or.inr rfl

lemma foldl_bump_keys {α : Type} [DecidableEq α] (P : α → Prop) :
    ∀ (ts : List α) (acc : List (α × Nat)), (∀ q ∈ acc, P q.1) → (∀ w ∈ ts, P w) →
      ∀ q ∈ ts.foldl bump acc, P q.1
  | [], acc, hacc, _, q, hq => hacc q hq
  | t :: ts, acc, hacc, hts, q, hq => by
    refine foldl_bump_keys P ts (bump acc t) ?_ (fun w hw => hts w (List.mem_cons_of_mem _ hw)) q hq
    intro q' hq'
    rcases mem_bump_fst hq' with h | h
    · rcases List.mem_map.mp h with ⟨p, hp, hpq⟩
      exact hpq ▸ hacc p hp
    · exact h ▸ hts t (List.mem_cons_self t ts)

lemma mem_bump_pos {α : Type} [DecidableEq α] {acc : List (α × Nat)} {w : α}
    (hacc : ∀ p ∈ acc, 0 < p.2) : ∀ q ∈ bump acc w, 0 < q.2 := by
  intro q hq
  unfold bump at hq
  split at hq
  · rcases List.mem_map.mp hq with ⟨p, hp, hpq⟩
    split at hpq <;> subst hpq
    · simp
    · exact hacc p hp
  · rcases List.mem_append.mp hq with hq | hq
    · exact hacc q hq
    · simp at hq
      subst hq
      simp

lemma foldl_bump_pos {α : Type} [DecidableEq α] :
    ∀ (ts : List α) (acc : List (α × Nat)), (∀ p ∈ acc, 0 < p.2) →
      ∀ q ∈ ts.foldl bump acc, 0 < q.2
  | [], _, hacc, q, hq => hacc q hq
  | t :: ts, acc, hacc, q, hq => foldl_bump_pos ts (bump acc t) (mem_bump_pos hacc) q hq

lemma bump_length_le {α : Type} [DecidableEq α] (acc : List (α × Nat)) (w : α) :
    acc.length ≤ (bump acc w).length := by
  unfold bump
  split
  · rw [List.length_map]
  · simp

lemma foldl_bump_length_le {α : Type} [DecidableEq α] :
    ∀ (ts : List α) (acc : List (α × Nat)), acc.length ≤ (ts.foldl bump acc).length
  | [], _ => le_refl _
  | t :: ts, acc => le_trans (bump_length_le acc t) (foldl_bump_length_le ts (bump acc t))

lemma countTokens_ne_nil {ts : List String} (h : ts ≠ []) : countTokens ts ≠ [] := by
  rcases ts with _ | ⟨t, ts⟩
  · exact absurd rfl h
  · have h1 : (bump ([] : List (String × Nat)) t).length = 1 := by simp [bump]
    have h2 := foldl_bump_length_le ts (bump ([] : List (String × Nat)) t)
    rw [h1] at h2
    have : 0 < (countTokens (t :: ts)).length := lt_of_lt_of_le Nat.one_pos h2
    exact List.ne_nil_of_length_pos this

lemma countTokens_pos {ts : List String} : ∀ q ∈ countTokens ts, 0 < q.2 :=
  foldl_bump_pos ts [] (by simp)

lemma countTokens_keys {ts : List String} (P : String → Prop) (h : ∀ w ∈ ts, P w) :
    ∀ q ∈ countTokens ts, P q.1 :=
  foldl_bump_keys P ts [] (by simp) h

lemma insertByCount_perm (x : String × Nat) :
    ∀ l : List (String × Nat), (insertByCount x l).Perm (x :: l)
  | [] => List.Perm.refl _
  | y :: ys => by
    unfold insertByCount
    split
    · exact List.Perm.refl _
    · exact (List.Perm.cons y (insertByCount_perm x ys)).trans (List.Perm.swap x y ys)

lemma sortByCountDesc_perm : ∀ l : List (String × Nat), (sortByCountDesc l).Perm l
  | [] => List.Perm.refl _
  | x :: xs =>
    (insertByCount_perm x (sortByCountDesc xs)).trans
      (List.Perm.cons x (sortByCountDesc_perm xs))

lemma subsumedCount_nil (w : String) : subsumedCount [] w = 0 := rfl

lemma mergeCollocations_ne_nil (uni : List (String × Nat))
    (bi : List ((String × String) × Nat)) (hne : uni ≠ [])
    (hpos : ∀ p ∈ uni, 0 < p.2) : mergeCollocations uni bi ≠ [] := by
  intro h
  rcases List.append_eq_nil.mp h with ⟨h1, h2⟩
  rcases uni with _ | ⟨u, rest⟩
  · exact hne rfl
  · rcases hm : mergedBigrams (u :: rest) bi with _ | ⟨b, ms⟩
    · rw [hm] at h1
      have hu : (u.1, u.2 - subsumedCount [] u.1) ∈
          (((u :: rest).map (fun v => (v.1, v.2 - subsumedCount [] v.1))).filter
            (fun v => decide (0 < v.2))) := by
        refine List.mem_filter.mpr ⟨List.mem_map_of_mem _ (List.mem_cons_self u rest), ?_⟩
        rw [subsumedCount_nil]
        simpa using hpos u (List.mem_cons_self u rest)
      rw [h1] at hu
      exact absurd hu (List.not_mem_nil _)
    · rw [hm] at h2
      simp at h2

lemma mergeCollocations_word_length (uni : List (String × Nat))
    (bi : List ((String × String) × Nat)) (h : ∀ u ∈ uni, 1 ≤ u.1.length) :
    ∀ q ∈ mergeCollocations uni bi, 1 ≤ q.1.length := by
  intro q hq
  rcases List.mem_append.mp hq with hq | hq
  · have hq1 := (List.mem_filter.mp hq).1
    rcases List.mem_map.mp hq1 with ⟨u, hu, rfl⟩
    exact h u hu
  · rcases List.mem_map.mp hq with ⟨b, hb, rfl⟩
    show 1 ≤ (b.1.1 ++ " " ++ b.1.2).length
    rw [String.length_append, String.length_append]
    have hone : (" " : String).length = 1 := rfl
    omega

lemma normalize_ne_nil {cfg : Config} {text : String}
    (htok : tokenize cfg text ≠ []) (hmw : 0 < cfg.max_words) :
    normalize cfg text ≠ [] := by
  unfold normalize
  have hc : (if cfg.collocations then
      mergeCollocations (countTokens (tokenize cfg text))
        (countPairs (adjacentPairs (tokenize cfg text)))
    else countTokens (tokenize cfg text)) ≠ [] := by
    split
    · exact mergeCollocations_ne_nil _ _ (countTokens_ne_nil htok) countTokens_pos
    · exact countTokens_ne_nil htok
  intro h
  rw [List.map_eq_nil_iff] at h
  have hlen := congrArg List.length h
  rw [List.length_take, (sortByCountDesc_perm _).length_eq] at hlen
  have hpos : 0 < (if cfg.collocations then
      mergeCollocations (countTokens (tokenize cfg text))
        (countPairs (adjacentPairs (tokenize cfg text)))
    else countTokens (tokenize cfg text)).length := List.length_pos.mpr hc
  simp only [List.length_nil] at hlen
  omega

lemma normalize_word_length {cfg : Config} {text : String} :
    ∀ e ∈ normalize cfg text, 1 ≤ e.word.length := by
  intro e he
  unfold normalize at he
  rcases List.mem_map.mp he with ⟨p, hp, rfl⟩
  have hp2 := List.mem_of_mem_take hp
  have hp3 := (sortByCountDesc_perm _).mem_iff.mp hp2
  show 1 ≤ p.1.length
  revert hp3
  split
  · intro hp3
    exact mergeCollocations_word_length _ _
      (countTokens_keys _ (fun w hw => length_pos_of_mem_tokenize hw)) p hp3
  · intro hp3
    exact countTokens_keys _ (fun w hw => length_pos_of_mem_tokenize hw) p hp3

/-! ## Lemmas about the size scaler -/

lemma maxFreq_le {vocab : List VocabEntry} {e : VocabEntry} (he : e ∈ vocab) :
    e.frequency ≤ maxFreq vocab := by
  induction vocab with
  | nil => exact absurd he (List.not_mem_nil _)
  | cons v rest ih =>
    rcases List.mem_cons.mp he with h | h
    · subst h
      exact le_max_left _ _
    · exact le_trans (ih h) (le_max_right _ _)

lemma scale_words (cfg : Config) (vocab : List VocabEntry) :
    (scale cfg vocab).map ScaledWord.word = vocab.map VocabEntry.word := by
  unfold scale
  rw [List.map_map]
  have h1 : (ScaledWord.word ∘ fun p : Nat × VocabEntry =>
      ScaledWord.mk p.2.word p.2.frequency (scaleSize cfg p.2.frequency (maxFreq vocab)) p.1)
      = VocabEntry.word ∘ Prod.snd := rfl
  rw [h1, ← List.map_map, List.enum_map_snd]

lemma mem_scale {cfg : Config} {vocab : List VocabEntry} {sw : ScaledWord}
    (hsw : sw ∈ scale cfg vocab) :
    ∃ e ∈ vocab, sw.word = e.word ∧ sw.frequency = e.frequency ∧
      sw.font_size = scaleSize cfg e.frequency (maxFreq vocab) := by
  unfold scale at hsw
  rcases List.mem_map.mp hsw with ⟨p, hp, rfl⟩
  refine ⟨p.2, ?_, rfl, rfl, rfl⟩
  have h1 := List.mem_map_of_mem Prod.snd hp
  rwa [List.enum_map_snd] at h1

/-! ## Lemmas about the placement search -/

lemma testFootprint_true {cfg : Config} {occ fp : List (Int × Int)} {off : Int × Int}
    (h : testFootprint cfg occ fp off = true) :
    ∀ c ∈ shiftCells fp off, inCanvas cfg c = true ∧ c ∉ occ := by
  intro c hc
  rw [testFootprint, List.all_eq_true] at h
  have hcell := h c hc
  simp only [Bool.and_eq_true, Bool.not_eq_true', decide_eq_false_iff_not] at hcell
  exact hcell

lemma tryAtSize_some {cfg : Config} {occ : List (Int × Int)} {word : String}
    {size : Nat} {r : Nat} {pl : PlacedLabel} {r2 : Nat}
    (h : tryAtSize cfg occ word size r = (some pl, r2)) :
    pl.word = word ∧ pl.font_size = size ∧
      (∀ c ∈ pl.footprint, inCanvas cfg c = true ∧ c ∉ occ) ∧
      ∃ rot off, pl.footprint = shiftCells (measure word size rot) off ∧
        testFootprint cfg occ (measure word size rot) off = true := by
  simp only [tryAtSize] at h
  split at h
  · rename_i off hfind
    injection h with h1 h2
    injection h1 with h1
    subst h1
    have htest := List.find?_some hfind
    exact ⟨rfl, rfl, fun c hc => testFootprint_true htest c hc, _, off, rfl, htest⟩
  · simp at h

lemma trySizes_some {cfg : Config} {occ : List (Int × Int)} {word : String} :
    ∀ (sizes : List Nat) (r : Nat) (pl : PlacedLabel) (r2 : Nat),
      trySizes cfg occ word sizes r = (some pl, r2) →
      pl.word = word ∧ pl.font_size ∈ sizes ∧
        (∀ c ∈ pl.footprint, inCanvas cfg c = true ∧ c ∉ occ) ∧
        ∃ rot off, pl.footprint = shiftCells (measure word pl.font_size rot) off ∧
          testFootprint cfg occ (measure word pl.font_size rot) off = true
  | [], r, pl, r2, h => by simp [trySizes] at h
  | s :: rest, r, pl, r2, h => by
    unfold trySizes at h
    split at h
    · rename_i pl' r2' heq
      injection h with h1 h2
      injection h1 with h1
      subst h1
      obtain ⟨hw, hs, hc, hex⟩ := tryAtSize_some heq
      subst hs
      exact ⟨hw, List.mem_cons_self _ _, hc, hex⟩
    · rename_i r2' heq
      obtain ⟨hw, hs, hc, hex⟩ := trySizes_some rest r2' pl r2 h
      exact ⟨hw, List.mem_cons_of_mem _ hs, hc, hex⟩

lemma stInv_placeOne {cfg : Config} {st : SearchState} (sw : ScaledWord)
    (h : stInv cfg st) : stInv cfg (placeOne cfg st sw) := by
  obtain ⟨hpw, hmask, hocc, hmocc⟩ := h
  unfold placeOne
  split
  · rename_i pl r2 heq
    obtain ⟨hw, hs, hcells, hex⟩ := trySizes_some _ _ _ _ heq
    refine ⟨?_, ?_, ?_, ?_⟩
    · rw [List.pairwise_append]
      refine ⟨hpw, List.pairwise_singleton _ _, ?_⟩
      intro a ha b hb
      simp only [List.mem_singleton] at hb
      subst hb
      intro c hc hcb
      exact (hcells c hcb).2 (hocc a ha c hc)
    · intro l hl c hc
      rcases List.mem_append.mp hl with hl | hl
      · exact hmask l hl c hc
      · simp only [List.mem_singleton] at hl
        subst hl
        intro hcm
        exact (hcells c hc).2 (hmocc c hcm)
    · intro l hl c hc
      rcases List.mem_append.mp hl with hl | hl
      · exact List.mem_append_left _ (hocc l hl c hc)
      · simp only [List.mem_singleton] at hl
        subst hl
        exact List.mem_append_right _ hc
    · exact fun c hcm => List.mem_append_left _ (hmocc c hcm)
  · exact ⟨hpw, hmask, hocc, hmocc⟩

lemma stInv_foldl {cfg : Config} : ∀ (ws : List ScaledWord) (st : SearchState),
    stInv cfg st → stInv cfg (ws.foldl (placeOne cfg) st)
  | [], _, h => h
  | sw :: ws, _st, h => stInv_foldl ws _ (stInv_placeOne sw h)

lemma stInv_runLayout (cfg : Config) (ws : List ScaledWord) :
    stInv cfg (runLayout cfg ws) := by
  apply stInv_foldl
  exact ⟨List.Pairwise.nil, by simp [initState], by simp [initState], fun c hc => hc⟩

lemma words_partition (cfg : Config) : ∀ (ws : List ScaledWord) (st : SearchState),
    ((ws.foldl (placeOne cfg) st).placed.map PlacedLabel.word
      ++ (ws.foldl (placeOne cfg) st).dropped).Perm
      ((st.placed.map PlacedLabel.word ++ st.dropped) ++ ws.map ScaledWord.word)
  | [], _st => by simp
  | sw :: ws, st => by
    have ih := words_partition cfg ws (placeOne cfg st sw)
    refine ih.trans ?_
    rw [List.perm_iff_count]
    intro a
    unfold placeOne
    split
    · rename_i pl r2 heq
      have hw : pl.word = sw.word := (trySizes_some _ _ _ _ heq).1
      simp [List.count_append, List.count_cons, hw]
      omega
    · simp [List.count_append, List.count_cons]

/-! ## Lemmas about degenerate canvases -/

lemma mem_rectCells {d1 d2 x y : Nat} (hx : x < d1) (hy : y < d2) :
    ((x : Int), (y : Int)) ∈ rectCells d1 d2 := by
  unfold rectCells
  simp only [List.mem_flatMap, List.mem_range, List.mem_map]
  exact ⟨x, hx, y, hy, rfl⟩

lemma rect_test_false {cfg : Config} {occ : List (Int × Int)} {d1 d2 : Nat}
    {off : Int × Int} (h1 : 1 ≤ d1) (h2 : 1 ≤ d2)
    (hsmall : cfg.width < (d1 : Int) ∨ cfg.height < (d2 : Int)) :
    testFootprint cfg occ (rectCells d1 d2) off = false := by
  cases htest : testFootprint cfg occ (rectCells d1 d2) off
  · rfl
  · exfalso
    have hspec := testFootprint_true htest
    have hcorner := hspec _ (List.mem_map_of_mem _
      (mem_rectCells (show d1 - 1 < d1 by omega) (show d2 - 1 < d2 by omega)))
    have h00 := hspec _ (List.mem_map_of_mem _
      (mem_rectCells (show 0 < d1 by omega) (show 0 < d2 by omega)))
    simp only [inCanvas, Bool.and_eq_true, decide_eq_true_iff] at hcorner h00
    obtain ⟨⟨⟨⟨ha, hb⟩, hc⟩, hd⟩, -⟩ := hcorner
    obtain ⟨⟨⟨⟨ha0, hb0⟩, hc0⟩, hd0⟩, -⟩ := h00
    simp only [Int.natCast_zero, zero_add] at ha0 hb0 hc0 hd0
    rcases hsmall with h | h <;> omega

lemma measure_test_false {cfg : Config} {occ : List (Int × Int)} {word : String}
    {size rot : Nat} {off : Int × Int} (hw : 1 ≤ word.length) (hs1 : 1 ≤ size)
    (hsmall : cfg.width < (size : Int) ∨ cfg.height < (size : Int)) :
    testFootprint cfg occ (measure word size rot) off = false := by
  have hls : size ≤ word.length * size := Nat.le_mul_of_pos_left size hw
  have hlsI : (size : Int) ≤ ((word.length * size : Nat) : Int) := Int.ofNat_le.mpr hls
  unfold measure
  split
  · refine rect_test_false hs1 (le_trans hs1 hls) ?_
    rcases hsmall with h | h
    · exact Or.inl h
    · exact Or.inr (by omega)
  · refine rect_test_false (le_trans hs1 hls) hs1 ?_
    rcases hsmall with h | h
    · exact Or.inl (by omega)
    · exact Or.inr h

lemma sizeAttempts_min {cfg : Config} {f : Frac} : ∀ s ∈ sizeAttempts cfg f, cfg.min_font_size ≤ s := by
  intro s hs
  exact of_decide_eq_true (List.mem_filter.mp hs).2

lemma smallCanvas_trySizes {cfg : Config} {occ : List (Int × Int)} {word : String}
    (hw : 1 ≤ word.length)
    (hmin : cfg.width < (cfg.min_font_size : Int) ∨ cfg.height < (cfg.min_font_size : Int))
    (hmin1 : 1 ≤ cfg.min_font_size) :
    ∀ (sizes : List Nat) (r : Nat), (∀ s ∈ sizes, cfg.min_font_size ≤ s) →
      (trySizes cfg occ word sizes r).1 = none := by
  intro sizes r hsz
  rcases htr : trySizes cfg occ word sizes r with ⟨opl, r2⟩
  cases opl with
  | none => rfl
  | some pl =>
    exfalso
    obtain ⟨hword, hmem, hcells, rot, off, hfp, htest⟩ := trySizes_some _ _ _ _ htr
    have hs := hsz _ hmem
    have hcast : (cfg.min_font_size : Int) ≤ (pl.font_size : Int) := Int.ofNat_le.mpr hs
    have hsmall2 : cfg.width < (pl.font_size : Int) ∨ cfg.height < (pl.font_size : Int) := by
      rcases hmin with h | h
      · exact Or.inl (lt_of_lt_of_le h hcast)
      · exact Or.inr (lt_of_lt_of_le h hcast)
    have hfalse := @measure_test_false cfg occ word pl.font_size rot off
      hw (le_trans hmin1 hs) hsmall2
    rw [htest] at hfalse
    exact Bool.noConfusion hfalse

lemma smallCanvas_placeOne {cfg : Config} {st : SearchState} {sw : ScaledWord}
    (hw : 1 ≤ sw.word.length)
    (hmin : cfg.width < (cfg.min_font_size : Int) ∨ cfg.height < (cfg.min_font_size : Int))
    (hmin1 : 1 ≤ cfg.min_font_size) :
    (placeOne cfg st sw).placed = st.placed ∧
      (placeOne cfg st sw).dropped = st.dropped ++ [sw.word] := by
  unfold placeOne
  split
  · rename_i pl r2 heq
    exfalso
    have hnone := @smallCanvas_trySizes cfg st.occ sw.word hw hmin hmin1
      (sizeAttempts cfg sw.font_size) st.rng sizeAttempts_min
    rw [heq] at hnone
    simp at hnone
  · exact ⟨rfl, rfl⟩

lemma smallCanvas_foldl {cfg : Config}
    (hmin : cfg.width < (cfg.min_font_size : Int) ∨ cfg.height < (cfg.min_font_size : Int))
    (hmin1 : 1 ≤ cfg.min_font_size) :
    ∀ (ws : List ScaledWord) (st : SearchState), (∀ sw ∈ ws, 1 ≤ sw.word.length) →
      (ws.foldl (placeOne cfg) st).placed = st.placed ∧
        (ws.foldl (placeOne cfg) st).dropped = st.dropped ++ ws.map ScaledWord.word
  | [], st, _ => ⟨rfl, by simp⟩
  | sw :: ws, st, hws => by
    obtain ⟨hp, hd⟩ := @smallCanvas_placeOne cfg st sw
      (hws sw (List.mem_cons_self sw ws)) hmin hmin1
    obtain ⟨ihp, ihd⟩ := smallCanvas_foldl hmin hmin1 ws (placeOne cfg st sw)
      (fun x hx => hws x (List.mem_cons_of_mem _ hx))
    constructor
    · rw [List.foldl_cons, ihp, hp]
    · rw [List.foldl_cons, ihd, hd]
      simp

/-! ## Lemmas about generate_layout and extract_text -/

lemma generate_layout_ok {text : String} {cfg : Config}
    (h1 : ¬(cfg.width ≤ 0 ∨ cfg.height ≤ 0)) (h2 : normalize cfg text ≠ []) :
    generate_layout text cfg = Except.ok
      ⟨(runLayout cfg (scale cfg (normalize cfg text))).placed,
       (runLayout cfg (scale cfg (normalize cfg text))).dropped,
       cfg.width, cfg.height⟩ := by
  simp only [generate_layout]
  rw [if_neg h1, if_neg h2]

lemma buildPages_getElem? : ∀ (raw : List String) (k i : Nat),
    (buildPages k raw)[i]? = raw[i]?.map (fun s => PageInfo.mk (k + i + 1) s s.length)
  | [], k, i => by simp [buildPages]
  | t :: rest, k, 0 => by simp [buildPages]
  | t :: rest, k, i + 1 => by
    simp only [buildPages, List.getElem?_cons_succ]
    rw [buildPages_getElem? rest (k + 1) i]
    have harith : k + 1 + i + 1 = k + (i + 1) + 1 := by omega
    rw [harith]

lemma buildPages_texts (f : String → String) :
    ∀ (raw : List String) (k : Nat),
      ((buildPages k raw).map (fun p => PageInfo.mk p.page_number (f p.text) p.char_count)).map
          PageInfo.text = raw.map f
  | [], _ => rfl
  | t :: rest, k => by
    simp only [buildPages, List.map_cons]
    rw [buildPages_texts f rest (k + 1)]

/-! ## Claim theorems -/

/-- Claim C1: in every `LayoutResult` produced by `generate_layout`, the
footprints of placed labels are pairwise cell-disjoint and each footprint is
disjoint from the mask's forbidden cells; this holds by construction, since
every committed footprint passed the occupancy test at commit time. -/
theorem no_overlap_invariant : ∀ (text : String) (cfg : Config) (r : LayoutResult),
    generate_layout text cfg = Except.ok r →
    r.placed.Pairwise cellsDisjoint ∧
      ∀ l ∈ r.placed, ∀ c ∈ l.footprint, c ∉ maskCells cfg := by
  intro text cfg r h
  simp only [generate_layout] at h
  split at h
  · simp at h
  · split at h
    · simp at h
    · injection h with h
      subst h
      obtain ⟨hpw, hmask, -, -⟩ := stInv_runLayout cfg (scale cfg (normalize cfg text))
      exact ⟨hpw, hmask⟩

/-- Witness: the no-overlap invariant instantiated on a concrete layout run. -/
theorem no_overlap_invariant_witness :
    ∃ r, generate_layout "cat cat cat dog dog bird" sampleCfg = Except.ok r ∧
      (r.placed.Pairwise cellsDisjoint ∧
        ∀ l ∈ r.placed, ∀ c ∈ l.footprint, c ∉ maskCells sampleCfg) :=
  ⟨_, rfl, no_overlap_invariant "cat cat cat dog dog bird" sampleCfg _ rfl⟩

/-- Claim C2: for every finite text and configuration with a valid canvas and
a nonempty vocabulary, `generate_layout` returns a `LayoutResult` (it is a
total function, so the computation terminates), and the placed words together
with the dropped words are a permutation of the input vocabulary: every word
ends up in exactly one of the two output sets. -/
theorem termination_partition : ∀ (text : String) (cfg : Config),
    ¬(cfg.width ≤ 0 ∨ cfg.height ≤ 0) → normalize cfg text ≠ [] →
    ∃ r, generate_layout text cfg = Except.ok r ∧
      (r.placed.map PlacedLabel.word ++ r.dropped).Perm
        ((normalize cfg text).map VocabEntry.word) := by
  intro text cfg h1 h2
  refine ⟨_, generate_layout_ok h1 h2, ?_⟩
  have hpart := words_partition cfg (scale cfg (normalize cfg text)) (initState cfg)
  simp only [initState, List.map_nil, List.nil_append] at hpart
  rw [scale_words] at hpart
  simpa [runLayout] using hpart

/-- Witness: the termination-and-partition theorem on a concrete run. -/
theorem termination_partition_witness :
    ∃ r, generate_layout "cat cat cat dog dog bird" sampleCfg = Except.ok r ∧
      (r.placed.map PlacedLabel.word ++ r.dropped).Perm
        ((normalize sampleCfg "cat cat cat dog dog bird").map VocabEntry.word) :=
  termination_partition "cat cat cat dog dog bird" sampleCfg (by decide) (by decide)

/-- Claim C3: `generate_layout` is deterministic — two runs on the same text
and the same configuration (which carries the random seed; all randomness is
drawn from the seeded generator it initialises) produce identical
`LayoutResult`s. -/
theorem determinism_fixed_seed : ∀ (text : String) (cfg : Config)
    (r1 r2 : Except LayoutError LayoutResult),
    generate_layout text cfg = r1 → generate_layout text cfg = r2 → r1 = r2 := by
  intro _ _ _ _ h1 h2
  rw [← h1, ← h2]

/-- Witness: determinism instantiated on a concrete run. -/
theorem determinism_fixed_seed_witness :
    generate_layout "cat dog" sampleCfg = generate_layout "cat dog" sampleCfg :=
  determinism_fixed_seed "cat dog" sampleCfg _ _ rfl rfl

/-- Claim C4: the engine's public interface is the single entry point
`generate_layout (text, config)`, a total (synchronous) function into
`LayoutResult`, and its configuration consists of exactly the fourteen
enumerated options: two configurations agreeing on all fourteen are equal. -/
theorem interface_shape :
    (∀ c1 c2 : Config, c1.width = c2.width → c1.height = c2.height →
      c1.min_font_size = c2.min_font_size → c1.max_font_size = c2.max_font_size →
      c1.max_words = c2.max_words → c1.scale_exponent = c2.scale_exponent →
      c1.rotation_set = c2.rotation_set → c1.rotation_probability = c2.rotation_probability →
      c1.mask = c2.mask → c1.stopwords = c2.stopwords →
      c1.min_word_length = c2.min_word_length → c1.collocations = c2.collocations →
      c1.random_seed = c2.random_seed → c1.max_spiral_steps = c2.max_spiral_steps →
      c1 = c2)
    ∧ ∀ (text : String) (cfg : Config),
        ∃ r : Except LayoutError LayoutResult, generate_layout text cfg = r := by
  constructor
  · intro c1 c2 h1 h2 h3 h4 h5 h6 h7 h8 h9 h10 h11 h12 h13 h14
    cases c1
    cases c2
    simp_all
  · exact fun text cfg => ⟨_, rfl⟩

/-- Witness: the interface-shape theorem applied to a concrete configuration
and call. -/
theorem interface_shape_witness :
    sampleCfg = sampleCfg ∧ ∃ r, generate_layout "x" sampleCfg = r :=
  ⟨interface_shape.1 sampleCfg sampleCfg rfl rfl rfl rfl rfl rfl rfl rfl rfl rfl rfl rfl
      rfl rfl,
   interface_shape.2 "x" sampleCfg⟩

/-- Claim C5: on a valid canvas, `generate_layout` fails with
`emptyVocabulary` exactly when no terms survive the normalizer's filtering;
the error is structural (decided before any placement work, from the
tokenizer output alone — in particular a nonempty token list and a positive
word cap rule it out), and per-word placement failures never raise: with a
nonempty vocabulary the run always returns a `LayoutResult`. -/
theorem empty_vocabulary_error : ∀ (text : String) (cfg : Config),
    (generate_layout text cfg = Except.error LayoutError.emptyVocabulary ↔
      ¬(cfg.width ≤ 0 ∨ cfg.height ≤ 0) ∧ normalize cfg text = [])
    ∧ (tokenize cfg text ≠ [] → 0 < cfg.max_words → normalize cfg text ≠ [])
    ∧ (¬(cfg.width ≤ 0 ∨ cfg.height ≤ 0) → normalize cfg text ≠ [] →
        ∃ r, generate_layout text cfg = Except.ok r) := by
  intro text cfg
  refine ⟨⟨?_, ?_⟩, fun a b => normalize_ne_nil a b,
    fun h1 h2 => ⟨_, generate_layout_ok h1 h2⟩⟩
  · intro h
    by_cases h1 : cfg.width ≤ 0 ∨ cfg.height ≤ 0
    · simp only [generate_layout, if_pos h1] at h
      exact absurd h (by simp)
    · refine ⟨h1, ?_⟩
      by_cases h2 : normalize cfg text = []
      · exact h2
      · rw [generate_layout_ok h1 h2] at h
        exact absurd h (by simp)
  · rintro ⟨h1, h2⟩
    simp only [generate_layout]
    rw [if_neg h1, if_pos h2]

/-- Witness: the empty-vocabulary characterisation on concrete inputs — a
stop-worded-away text yields the error, a normal text yields a result. -/
theorem empty_vocabulary_error_witness :
    generate_layout "the the" { sampleCfg with stopwords := ["the"] }
        = Except.error LayoutError.emptyVocabulary
    ∧ ∃ r, generate_layout "cat dog" sampleCfg = Except.ok r :=
  ⟨(empty_vocabulary_error "the the" { sampleCfg with stopwords := ["the"] }).1.mpr
      ⟨by decide, by decide⟩,
   (empty_vocabulary_error "cat dog" sampleCfg).2.2 (by decide) (by decide)⟩

/-- Claim C6: every scaled word's font size is
`min_size + (max_size - min_size) * (frequency / max_frequency) ^ scale_exponent`,
and a single-word vocabulary is assigned exactly `max_size`. -/
theorem font_size_scaling : ∀ (cfg : Config) (vocab : List VocabEntry),
    (∀ e ∈ vocab, 1 ≤ e.frequency) →
    (∀ sw ∈ scale cfg vocab,
        sw.font_size.toQ = (cfg.min_font_size : ℚ)
          + ((cfg.max_font_size : ℚ) - (cfg.min_font_size : ℚ))
            * ((sw.frequency : ℚ) / (maxFreq vocab : ℚ)) ^ cfg.scale_exponent)
    ∧ ∀ (w : String) (fq : Nat), vocab = [⟨w, fq⟩] →
        (scale cfg vocab).map (fun sw => sw.font_size.toQ)
          = [(cfg.max_font_size : ℚ)] := by
  intro cfg vocab hfreq
  constructor
  · intro sw hsw
    obtain ⟨e, he, hword, hfq, hsize⟩ := mem_scale hsw
    have hmf1 : 1 ≤ maxFreq vocab := le_trans (hfreq e he) (maxFreq_le he)
    have hmfQ : ((maxFreq vocab : Nat) : ℚ) ≠ 0 := Nat.cast_ne_zero.mpr (by omega)
    rw [hsize, hfq]
    unfold scaleSize Frac.toQ
    push_cast
    rw [div_pow]
    field_simp
  · intro w fq hv
    subst hv
    have hfq1 : 1 ≤ fq := hfreq ⟨w, fq⟩ (List.mem_singleton_self _)
    have hQ : ((fq : Nat) : ℚ) ≠ 0 := Nat.cast_ne_zero.mpr (by omega)
    have hform : scale cfg [⟨w, fq⟩]
        = [⟨w, fq, scaleSize cfg fq (maxFreq [⟨w, fq⟩]), 0⟩] := rfl
    have hmax : maxFreq [(⟨w, fq⟩ : VocabEntry)] = fq := Nat.max_zero fq
    rw [hform, List.map_singleton]
    rw [show (⟨w, fq, scaleSize cfg fq (maxFreq [⟨w, fq⟩]), 0⟩ : ScaledWord).font_size
        = scaleSize cfg fq (maxFreq [⟨w, fq⟩]) from rfl, hmax]
    unfold scaleSize Frac.toQ
    push_cast
    congr 1
    rw [div_eq_iff (pow_ne_zero _ hQ)]
    ring

/-- Witness: the single-word vocabulary gets exactly the maximum font size. -/
theorem font_size_scaling_witness :
    (scale sampleCfg [⟨"cat", 3⟩]).map (fun sw => sw.font_size.toQ)
      = [(sampleCfg.max_font_size : ℚ)] :=
  (font_size_scaling sampleCfg [⟨"cat", 3⟩] (by decide)).2 "cat" 3 rfl

/-- Claim C7: `generate_layout` fails with `invalidCanvas` exactly when the
canvas width or height is not positive; a positive but too-small canvas
(smaller than the minimum footprint dimension `min_font_size` in either
direction) is not an error: the run succeeds with every word dropped and
`placed` empty. -/
theorem invalid_and_degenerate_canvas : ∀ (text : String) (cfg : Config),
    (generate_layout text cfg = Except.error LayoutError.invalidCanvas ↔
      cfg.width ≤ 0 ∨ cfg.height ≤ 0)
    ∧ (¬(cfg.width ≤ 0 ∨ cfg.height ≤ 0) →
        (cfg.width < (cfg.min_font_size : Int) ∨ cfg.height < (cfg.min_font_size : Int)) →
        ∀ r, generate_layout text cfg = Except.ok r →
          r.placed = [] ∧ r.dropped = (normalize cfg text).map VocabEntry.word) := by
  intro text cfg
  constructor
  · constructor
    · intro h
      by_contra h1
      by_cases h2 : normalize cfg text = []
      · simp only [generate_layout] at h
        rw [if_neg h1, if_pos h2] at h
        exact absurd h (by simp)
      · rw [generate_layout_ok h1 h2] at h
        exact absurd h (by simp)
    · intro h1
      simp only [generate_layout, if_pos h1]
  · intro h1 hsmall r hok
    have hwpos : 0 < cfg.width ∧ 0 < cfg.height := by
      push_neg at h1
      omega
    have hmin1 : 1 ≤ cfg.min_font_size := by
      obtain ⟨hw, hh⟩ := hwpos
      rcases hsmall with h | h <;> omega
    by_cases h2 : normalize cfg text = []
    · simp only [generate_layout] at hok
      rw [if_neg h1, if_pos h2] at hok
      exact absurd hok (by simp)
    · rw [generate_layout_ok h1 h2] at hok
      injection hok with hok
      subst hok
      have hlen : ∀ sw ∈ scale cfg (normalize cfg text), 1 ≤ sw.word.length := by
        intro sw hsw
        obtain ⟨e, he, hword, -, -⟩ := mem_scale hsw
        rw [hword]
        exact normalize_word_length e he
      obtain ⟨hp, hd⟩ := smallCanvas_foldl hsmall hmin1
        (scale cfg (normalize cfg text)) (initState cfg) hlen
      constructor
      · simpa [runLayout, initState] using hp
      · have hd2 := hd
        rw [scale_words] at hd2
        simpa [runLayout, initState] using hd2

/-- Witness: an invalid canvas errors; a two-by-two canvas with an eight
pixel minimum font drops every word and places none. -/
theorem invalid_and_degenerate_canvas_witness :
    generate_layout "hi" { tinyCfg with width := 0 }
        = Except.error LayoutError.invalidCanvas
    ∧ ∃ r, generate_layout "hi" tinyCfg = Except.ok r
        ∧ r.placed = [] ∧ r.dropped = (normalize tinyCfg "hi").map VocabEntry.word :=
  ⟨(invalid_and_degenerate_canvas "hi" { tinyCfg with width := 0 }).1.mpr (by decide),
   _, rfl,
   (invalid_and_degenerate_canvas "hi" tinyCfg).2 (by decide) (by decide) _ rfl⟩

/-- Claim C8: every page record of `extract_text` carries `page_number = i + 1`
for page index `i`, and `char_count` equal to the length of the page's raw
extracted text, measured before the later removal of the watermark from the
stored text — so after sanitization `char_count` can strictly exceed the
stored text's length, as a concrete input shows. -/
theorem page_metadata :
    (∀ (rawPages : List String) (i : Nat) (p : PageInfo),
        (extract_text rawPages).pages[i]? = some p →
        p.page_number = i + 1 ∧ some p.char_count = rawPages[i]?.map String.length)
    ∧ ∃ (rawPages : List String) (i : Nat) (p : PageInfo),
        (extract_text rawPages).pages[i]? = some p ∧ p.text.length < p.char_count := by
  constructor
  · intro raw i p hp
    simp only [extract_text] at hp
    rw [List.getElem?_map, buildPages_getElem?] at hp
    cases hq : raw[i]? with
    | none =>
      rw [hq] at hp
      simp at hp
    | some s =>
      rw [hq] at hp
      simp only [Option.map_some'] at hp
      injection hp with hp
      subst hp
      exact ⟨by simp, rfl⟩
  · exact ⟨["xAmericanRhetoric.comy"], 0, ⟨1, "xy", 22⟩, by decide, by decide⟩

/-- Witness: the page-metadata theorem on a one-page input whose raw text
contains the watermark. -/
theorem page_metadata_witness :
    (⟨1, "xy", 22⟩ : PageInfo).page_number = 0 + 1 ∧
      some (⟨1, "xy", 22⟩ : PageInfo).char_count
        = (["xAmericanRhetoric.comy"] : List String)[0]?.map String.length :=
  page_metadata.1 ["xAmericanRhetoric.comy"] 0 ⟨1, "xy", 22⟩ (by decide)

/-- Claim C9 counterexample: the claim that the full phrase
"Property of AmericanRhetoric.com" never appears in `full_text` is false:
the single-pass removal of "AmericanRhetoric.com" can splice the surrounding
text into a new occurrence of the full phrase, which survives. -/
theorem full_text_watermark_counterexample :
    hasSub arFull.data
      (extract_text ["Property of AmericanAmericanRhetoric.comRhetoric.com"]).full_text.data
      = true := by decide

/-- Claim C9 (amended): `full_text` equals the per-page raw texts joined by a
blank line with every occurrence of "Property of AmericanRhetoric.com"
removed in one left-to-right pass and then every remaining occurrence of
"AmericanRhetoric.com" removed in a second pass, while each stored per-page
text only has "AmericanRhetoric.com" removed; the residual "Property of "
can appear in a page's text, and — because each pass never rescans its own
output — a removal can splice surrounding text into a new occurrence, so
the full phrase can also still appear in `full_text`. -/
theorem full_text_watermark_amended :
    (∀ rawPages : List String,
      (extract_text rawPages).full_text
        = removeAllStr arShort (removeAllStr arFull
            (String.mk (joinParts "\n\n".data (rawPages.map String.data))))
      ∧ (extract_text rawPages).pages.map PageInfo.text
        = rawPages.map (fun t => removeAllStr arShort t))
    ∧ (∃ rawPages : List String,
        hasSub "Property of ".data
          (((extract_text rawPages).pages.map PageInfo.text).headD "").data = true
        ∧ hasSub arFull.data (extract_text rawPages).full_text.data = true) := by
  constructor
  · intro raw
    refine ⟨rfl, ?_⟩
    simp only [extract_text]
    exact buildPages_texts (fun t => removeAllStr arShort t) raw 0
  · exact ⟨["Property of AmericanAmericanRhetoric.comRhetoric.com"], by decide, by decide⟩

/-- Claim C10: the pipeline's outputs are mutually consistent — the summary
is exactly "Extracted {n} words from {p} pages." with `n` the
thousands-formatted whitespace word count of `full_text` and `p` the
extracted page count (the number of raw pages), and the extracted-text file
content equals the very `full_text` passed to the word-cloud generation. -/
theorem pipeline_output_consistency : ∀ rawPages : List String,
    (pdf_wordcloud_pipeline rawPages).summary
      = "Extracted " ++ thousandsFmt (pyWordCount (extract_text rawPages).full_text)
        ++ " words from " ++ Nat.repr (extract_text rawPages).page_count ++ " pages."
    ∧ (extract_text rawPages).page_count = rawPages.length
    ∧ (pdf_wordcloud_pipeline rawPages).extracted_text = (extract_text rawPages).full_text
    ∧ (pdf_wordcloud_pipeline rawPages).wordcloud_image.source_text
      = (pdf_wordcloud_pipeline rawPages).extracted_text :=
  fun _ => ⟨rfl, rfl, rfl, rfl⟩

end WC
